import Mathlib

/-!
Verification of the ratitude ingest-decode-fan-out pipeline.

Bytes are modelled as `Nat` values (below 256 where the width matters); byte
buffers are `List Nat`.  Fallible operations return `Option` or `Except`.
Loops are transcribed as structurally recursive functions over an explicit
fuel argument; every wrapper passes a fuel bound that the loop provably
never exhausts (each iteration strictly consumes input).
-/

/-- Loop of Go `protocol.CobsDecode`: `i` is the scan index into `frame`,
`out` the accumulated payload.  A zero code byte is invalid; a truncated
chunk (`i + count > len(frame)` after consuming the code byte) is invalid;
otherwise the `code - 1` literal bytes are appended, followed by an implicit
0x00 unless the code is 0xFF or the frame is exhausted.  The fuel argument
only drives the recursion; `i` grows by at least one per iteration, so
`frame.length + 1` units are always enough. -/
def cobsDecodeLoop : Nat → List Nat → Nat → List Nat → Option (List Nat)
  | 0, _, _, _ => none
  | fuel + 1, frame, i, out =>
    if i < frame.length then
      let code := frame.getD i 0
      if code = 0 then none
      else if frame.length < i + 1 + (code - 1) then none
      else cobsDecodeLoop fuel frame (i + 1 + (code - 1))
        (out ++ (frame.drop (i + 1)).take (code - 1) ++
          (if code ≠ 255 ∧ i + 1 + (code - 1) < frame.length then [0] else []))
    else some out

/-- Go `protocol.CobsDecode`: decode one COBS frame (trailing 0x00 delimiter
already stripped) into its payload; `none` signals a malformed frame. -/
def cobsDecode (frame : List Nat) : Option (List Nat) :=
  cobsDecodeLoop (frame.length + 1) frame 0 []

/-- COBS decoding contract as worded in spec §4.3, on the remaining frame
suffix: scan chunks; a leading code byte `c` denotes the offset to the next
implicit zero; a code of 0x00 is invalid; a truncated chunk (fewer remaining
bytes than `c - 1`) is invalid; a code of 0xFF marks a full-length chunk with
no implicit zero after; any other code emits `c - 1` literal bytes followed
by an implicit 0x00, except when no bytes remain after the chunk.  Each step
consumes at least the code byte, so fuel `l.length` always suffices. -/
def cobsDecodeSpecF : Nat → List Nat → Option (List Nat)
  | _, [] => some []
  | 0, _ :: _ => none
  | fuel + 1, code :: rest =>
    if code = 0 then none
    else if rest.length < code - 1 then none
    else
      match cobsDecodeSpecF fuel (rest.drop (code - 1)) with
      | none => none
      | some tail =>
        some (rest.take (code - 1) ++
          (if code ≠ 255 ∧ rest.drop (code - 1) ≠ [] then 0 :: tail else tail))

/-- Spec §4.3 COBS contract on a whole frame. -/
def cobsDecodeSpec (frame : List Nat) : Option (List Nat) :=
  cobsDecodeSpecF frame.length frame

theorem cobsDecodeSpecF_fuel (f1 : Nat) :
    ∀ f2 l, l.length ≤ f1 → l.length ≤ f2 →
      cobsDecodeSpecF f1 l = cobsDecodeSpecF f2 l := by
  induction f1 with
  | zero =>
    intro f2 l h1 _
    match l with
    | [] => cases f2 <;> rfl
    | _ :: _ => simp at h1
  | succ f1 ih =>
    intro f2 l h1 h2
    match l with
    | [] => cases f2 <;> rfl
    | code :: rest =>
      match f2 with
      | 0 => simp at h2
      | f2 + 1 =>
        simp only [cobsDecodeSpecF]
        rw [ih f2 (rest.drop (code - 1))
          (by simp [List.length_drop] at *; omega)
          (by simp [List.length_drop] at *; omega)]

theorem cobsDecodeLoop_eq_specF (frame : List Nat) :
    ∀ fuel f i out, frame.length - i < fuel → (frame.drop i).length ≤ f →
      cobsDecodeLoop fuel frame i out = (cobsDecodeSpecF f (frame.drop i)).map (out ++ ·) := by
  intro fuel
  induction fuel with
  | zero => intro f i out h _; omega
  | succ fuel ih =>
    intro f i out h hf
    by_cases hi : i < frame.length
    · have hdrop : frame.drop i = frame[i] :: frame.drop (i + 1) :=
        List.drop_eq_getElem_cons hi
      have hget : frame.getD i 0 = frame[i] := List.getD_eq_getElem frame 0 hi
      rw [hdrop] at hf ⊢
      match f with
      | 0 => simp [List.length_drop] at hf; omega
      | f + 1 =>
        simp only [cobsDecodeLoop, if_pos hi, hget, cobsDecodeSpecF]
        set code := frame[i] with hcode
        by_cases hz : code = 0
        · simp [hz]
        · rw [if_neg hz, if_neg hz]
          have hrestlen : (frame.drop (i + 1)).length = frame.length - (i + 1) :=
            List.length_drop _ _
          by_cases htr : frame.length < i + 1 + (code - 1)
          · rw [if_pos (by omega : (frame.drop (i + 1)).length < code - 1)]
            simp [htr]
          · rw [if_neg (by omega : ¬ (frame.drop (i + 1)).length < code - 1),
              if_neg htr]
            have hdd : (frame.drop (i + 1)).drop (code - 1) = frame.drop (i + 1 + (code - 1)) := by
              rw [List.drop_drop]
            have hrec := ih f (i + 1 + (code - 1))
              (out ++ (frame.drop (i + 1)).take (code - 1) ++
                (if code ≠ 255 ∧ i + 1 + (code - 1) < frame.length then [0] else []))
              (by omega)
              (by rw [List.length_drop]; simp [List.length_drop] at hf; omega)
            rw [hrec, hdd]
            have hf' : (frame.drop (i + 1 + (code - 1))).length ≤ f := by
              rw [List.length_drop]; simp [List.length_drop] at hf; omega
            rw [cobsDecodeSpecF_fuel f (frame.length) _ hf' (by rw [List.length_drop]; omega)]
            have hne : (frame.drop (i + 1 + (code - 1)) ≠ []) ↔ i + 1 + (code - 1) < frame.length := by
              rw [← List.length_pos, List.length_drop]; omega
            cases hspec : cobsDecodeSpecF frame.length (frame.drop (i + 1 + (code - 1))) with
            | none => simp
            | some tail =>
              simp only [Option.map_some']
              by_cases hff : code ≠ 255 ∧ i + 1 + (code - 1) < frame.length
              · have hff' : code ≠ 255 ∧ frame.drop (i + 1 + (code - 1)) ≠ [] :=
                  ⟨hff.1, hne.mpr hff.2⟩
                simp [hff, hff']
              · have hff' : ¬ (code ≠ 255 ∧ frame.drop (i + 1 + (code - 1)) ≠ []) := by
                  intro hc; exact hff ⟨hc.1, hne.mp hc.2⟩
                simp [hff, hff']
    · have hd : frame.drop i = [] := List.drop_eq_nil_of_le (by omega)
      rw [hd] at hf ⊢
      simp only [cobsDecodeLoop, if_neg hi]
      cases f <;> simp [cobsDecodeSpecF]

theorem cobsDecode_eq_cobsDecodeSpec (frame : List Nat) :
    cobsDecode frame = cobsDecodeSpec frame := by
  have h := cobsDecodeLoop_eq_specF frame (frame.length + 1) frame.length 0 []
    (by omega) (by simp)
  simpa [cobsDecode, cobsDecodeSpec] using h

/-- C2: `CobsDecode` rejects a frame exactly when some chunk has code byte
0x00 or is truncated, and otherwise emits, for each chunk in input order, the
`c-1` literal bytes followed by an implicit 0x00 except when the code is 0xFF
or no bytes remain; stated as agreement with the spec-worded chunk scan
`cobsDecodeSpec`.  In particular the frame `0x00 0x01` is rejected. -/
theorem claim_C2_cobs_decode_contract :
    (∀ frame, cobsDecode frame = cobsDecodeSpec frame) ∧ cobsDecode [0, 1] = none := by
  exact ⟨cobsDecode_eq_cobsDecodeSpec, by decide⟩

/-! ## Firmware COBS encoder (firmware/src/rat_cobs.c)

The RTT ring buffer is modelled as the list of bytes written since the
frame started (write head `wr` starts at 0 and the buffer size is taken
larger than one encoded frame, so the `% size` wrap is the identity).
`codePos` is the index of the pending code byte, `code` the running
uint8 code counter. -/

structure RatCobsState where
  buf : List Nat
  codePos : Nat
  code : Nat
  deriving Repr, DecidableEq

/-- C `rat_cobs_begin`: reserve a code byte at the write head. -/
def ratCobsBegin : RatCobsState :=
  { buf := [0], codePos := 0, code := 1 }

/-- C `rat_cobs_write_byte`: a zero byte patches the pending code and opens a
new chunk; a non-zero byte is appended and bumps the code, and when the code
reaches 0xFF the full chunk is closed and a new code byte reserved. -/
def ratCobsWriteByte (s : RatCobsState) (b : Nat) : RatCobsState :=
  if b = 0 then
    { buf := (s.buf.set s.codePos s.code) ++ [0], codePos := s.buf.length, code := 1 }
  else
    let s1 : RatCobsState := { s with buf := s.buf ++ [b], code := s.code + 1 }
    if s1.code = 255 then
      { buf := (s1.buf.set s1.codePos s1.code) ++ [0], codePos := s1.buf.length, code := 1 }
    else s1

/-- C `rat_cobs_finish`: patch the pending code byte and append the 0x00
frame delimiter. -/
def ratCobsFinish (s : RatCobsState) : List Nat :=
  (s.buf.set s.codePos s.code) ++ [0]

/-- The frame the firmware hands to the wire for payload `S`, with the
trailing 0x00 delimiter stripped again by the host framer. -/
def cobsEncode (s : List Nat) : List Nat :=
  (ratCobsFinish (s.foldl ratCobsWriteByte ratCobsBegin)).dropLast

/-- Closed form of the encoder on zero-free payloads: `mid` is the open
chunk's literal bytes; a full 254-byte chunk is emitted with code 0xFF and a
fresh chunk opened. -/
def cobsEncChunks : List Nat → List Nat → List Nat
  | mid, [] => (mid.length + 1) :: mid
  | mid, b :: rest =>
    if mid.length = 253 then (255 :: (mid ++ [b])) ++ cobsEncChunks [] rest
    else cobsEncChunks (mid ++ [b]) rest

theorem set_append_cons (pre tail : List Nat) (x y : Nat) :
    (pre ++ x :: tail).set pre.length y = pre ++ y :: tail := by
  induction pre with
  | nil => rfl
  | cons p ps ih => simp [List.set, ih]

theorem ratCobs_foldl_eq_chunks :
    ∀ s : List Nat, (∀ b ∈ s, b ≠ 0) → ∀ pre mid : List Nat, mid.length ≤ 253 →
      ratCobsFinish (s.foldl ratCobsWriteByte
          { buf := pre ++ 0 :: mid, codePos := pre.length, code := mid.length + 1 })
        = pre ++ cobsEncChunks mid s ++ [0] := by
  intro s
  induction s with
  | nil =>
    intro _ pre mid _
    simp [List.foldl_nil, ratCobsFinish, cobsEncChunks, set_append_cons]
  | cons b rest ih =>
    intro hnz pre mid hmid
    have hb : b ≠ 0 := hnz b (by simp)
    have hrest : ∀ x ∈ rest, x ≠ 0 := fun x hx => hnz x (by simp [hx])
    simp only [List.foldl_cons]
    rw [show ratCobsWriteByte
        { buf := pre ++ 0 :: mid, codePos := pre.length, code := mid.length + 1 } b
      = if mid.length + 1 + 1 = 255 then
          { buf := (((pre ++ 0 :: mid) ++ [b]).set pre.length (mid.length + 1 + 1)) ++ [0],
            codePos := ((pre ++ 0 :: mid) ++ [b]).length, code := 1 }
        else
          { buf := (pre ++ 0 :: mid) ++ [b], codePos := pre.length, code := mid.length + 1 + 1 }
      from by simp [ratCobsWriteByte, hb]]
    by_cases h253 : mid.length = 253
    · have hcode : mid.length + 1 + 1 = 255 := by omega
      rw [if_pos hcode]
      have hset : (((pre ++ 0 :: mid) ++ [b]).set pre.length (mid.length + 1 + 1)) ++ [0]
          = (pre ++ 255 :: (mid ++ [b])) ++ 0 :: [] := by
        rw [List.append_assoc, List.cons_append, set_append_cons]
        simp [hcode]
      have hlen : ((pre ++ 0 :: mid) ++ [b]).length = (pre ++ 255 :: (mid ++ [b])).length := by
        simp
      rw [hset, hlen]
      have := ih hrest (pre ++ 255 :: (mid ++ [b])) [] (by simp)
      simp only [List.length_nil] at this
      rw [show (pre ++ 255 :: (mid ++ [b])) ++ 0 :: []
          = (pre ++ 255 :: (mid ++ [b])) ++ 0 :: ([] : List Nat) from rfl]
      rw [this]
      simp only [cobsEncChunks, if_pos h253]
      simp
    · rw [if_neg (by omega : ¬ mid.length + 1 + 1 = 255)]
      have hshape : (pre ++ 0 :: mid) ++ [b] = pre ++ 0 :: (mid ++ [b]) := by simp
      rw [hshape]
      have hthis := ih hrest pre (mid ++ [b]) (by simp; omega)
      have hlen2 : (mid ++ [b]).length = mid.length + 1 := by simp
      rw [hlen2] at hthis
      rw [hthis]
      simp only [cobsEncChunks, if_neg h253]

theorem cobsEncode_eq_chunks (s : List Nat) (hnz : ∀ b ∈ s, b ≠ 0) :
    cobsEncode s = cobsEncChunks [] s := by
  have h := ratCobs_foldl_eq_chunks s hnz [] [] (by simp)
  have h' : ratCobsFinish (s.foldl ratCobsWriteByte ratCobsBegin)
      = cobsEncChunks [] s ++ [0] := by
    simpa [ratCobsBegin] using h
  rw [cobsEncode, h']
  simp

theorem cobsEncChunks_ne_nil (mid s : List Nat) : cobsEncChunks mid s ≠ [] := by
  induction s generalizing mid with
  | nil => simp [cobsEncChunks]
  | cons b rest ih =>
    simp only [cobsEncChunks]
    by_cases h : mid.length = 253
    · simp [h]
    · simpa [h] using ih (mid ++ [b])

theorem cobsDecodeSpecF_encChunks :
    ∀ s mid : List Nat, mid.length ≤ 253 →
      ∀ f, (cobsEncChunks mid s).length ≤ f →
        cobsDecodeSpecF f (cobsEncChunks mid s) = some (mid ++ s) := by
  intro s
  induction s with
  | nil =>
    intro mid hmid f hfuel
    simp only [cobsEncChunks] at hfuel ⊢
    match f with
    | 0 => simp at hfuel
    | f + 1 =>
      simp only [cobsDecodeSpecF]
      rw [if_neg (by omega : ¬ mid.length + 1 = 0),
        if_neg (by omega : ¬ mid.length < mid.length + 1 - 1)]
      rw [show mid.length + 1 - 1 = mid.length from by omega]
      rw [List.drop_length, List.take_length]
      have hnff : ¬ (mid.length + 1 ≠ 255 ∧ ([] : List Nat) ≠ []) := by simp
      simp [cobsDecodeSpecF, hnff]
  | cons b rest ih =>
    intro mid hmid f hfuel
    by_cases h253 : mid.length = 253
    · simp only [cobsEncChunks, if_pos h253] at hfuel ⊢
      match f with
      | 0 => simp at hfuel
      | f + 1 =>
        rw [List.cons_append]
        simp only [cobsDecodeSpecF]
        rw [if_neg (by omega : ¬ (255 : Nat) = 0)]
        rw [show (255 : Nat) - 1 = 254 from rfl]
        have hmb : (mid ++ [b]).length = 254 := by simp; omega
        have hlen : ((mid ++ [b]) ++ cobsEncChunks [] rest).length
            = 254 + (cobsEncChunks [] rest).length := by
          rw [List.length_append, hmb]
        rw [if_neg (by rw [hlen]; omega :
          ¬ ((mid ++ [b]) ++ cobsEncChunks [] rest).length < 254)]
        rw [show (254 : Nat) = (mid ++ [b]).length from hmb.symm]
        rw [List.take_left, List.drop_left]
        rw [ih [] (by simp) f (by simp at hfuel; omega)]
        simp
    · simp only [cobsEncChunks, if_neg h253] at hfuel ⊢
      have := ih (mid ++ [b]) (by simp; omega) f hfuel
      rw [this]
      simp

/-- C3: for every zero-free byte sequence `S`, COBS-decoding the frame the
firmware produces for `S` (via `rat_cobs_begin` / `rat_cobs_write_byte` /
`rat_cobs_finish`, trailing 0x00 delimiter stripped) with `CobsDecode`
succeeds and yields exactly `S`. -/
theorem claim_C3_cobs_round_trip (s : List Nat) (hnz : ∀ b ∈ s, b ≠ 0) :
    cobsDecode (cobsEncode s) = some s := by
  rw [cobsDecode_eq_cobsDecodeSpec, cobsEncode_eq_chunks s hnz, cobsDecodeSpec]
  simpa using cobsDecodeSpecF_encChunks s [] (by simp) (cobsEncChunks [] s).length (by omega)

/-- Witness for C3 at the concrete payload `0x68 0x69`. -/
theorem claim_C3_cobs_round_trip_witness :
    cobsDecode (cobsEncode [104, 105]) = some [104, 105] :=
  claim_C3_cobs_round_trip [104, 105] (by decide)

/-! ## Hub (pkg/engine/hub.go)

The hub actor `Hub.Run` owns the subscriber set; we model one subscriber
channel as its capacity, its queued items, the history of items ever
enqueued to it, and a drop counter, and the actor loop as a step function
over register / unregister / broadcast events plus a `consume` event for the
subscriber end reading its channel. -/

structure HubSub (P : Type) where
  cap : Nat
  queue : List P
  received : List P
  drops : Nat
  deriving Repr, DecidableEq

inductive HubEvent (P : Type) where
  | register (cap : Nat)
  | unregister (i : Nat)
  | broadcast (x : P)
  | consume (i : Nat)

/-- The non-blocking send `select { case ch <- packet: default: }` in
`Hub.Run`: enqueue when the bounded channel has room, otherwise drop the
item for this subscriber. -/
def trySend {P : Type} (x : P) (s : HubSub P) : HubSub P :=
  if s.queue.length < s.cap then
    { s with queue := s.queue ++ [x], received := s.received ++ [x] }
  else
    { s with drops := s.drops + 1 }

/-- A subscriber reading one item off its channel. -/
def popFront {P : Type} (s : HubSub P) : HubSub P :=
  { s with queue := s.queue.drop 1 }

/-- One iteration of the `Hub.Run` select loop (plus the subscriber-side
read): register appends a fresh channel, unregister removes one, broadcast
offers the item to every subscriber with `trySend`. -/
def hubStep {P : Type} (st : List (HubSub P)) : HubEvent P → List (HubSub P)
  | .register c => st ++ [⟨c, [], [], 0⟩]
  | .unregister i => st.eraseIdx i
  | .broadcast x => st.map (trySend x)
  | .consume i =>
    match st.get? i with
    | some s => st.set i (popFront s)
    | none => st

def hubRun {P : Type} (st : List (HubSub P)) (events : List (HubEvent P)) : List (HubSub P) :=
  events.foldl hubStep st

/-- The publish sequence of a trace. -/
def hubPublishes {P : Type} (events : List (HubEvent P)) : List P :=
  events.filterMap fun e => match e with
    | .broadcast x => some x
    | _ => none

theorem hubStep_queue_le_cap {P : Type} (st : List (HubSub P)) (e : HubEvent P)
    (h : ∀ s ∈ st, s.queue.length ≤ s.cap) :
    ∀ s ∈ hubStep st e, s.queue.length ≤ s.cap := by
  cases e with
  | register c =>
    intro s hs
    rcases List.mem_append.mp hs with hs | hs
    · exact h s hs
    · simp at hs; subst hs; simp
  | unregister i =>
    intro s hs
    exact h s ((List.eraseIdx_sublist st i).subset hs)
  | broadcast x =>
    intro s hs
    rcases List.mem_map.mp hs with ⟨t, ht, rfl⟩
    have := h t ht
    unfold trySend
    by_cases hq : t.queue.length < t.cap
    · simp [hq]; omega
    · simp [hq]; omega
  | consume i =>
    intro s hs
    simp only [hubStep] at hs
    cases hget : st.get? i with
    | none => rw [hget] at hs; exact h s hs
    | some t =>
      rw [hget] at hs
      rcases List.mem_or_eq_of_mem_set hs with hmem | rfl
      · exact h s hmem
      · have ht := h t (List.get?_mem hget)
        simp only [popFront, List.length_drop]
        omega

theorem hubRun_queue_le_cap {P : Type} (events : List (HubEvent P)) :
    ∀ st, (∀ s ∈ st, s.queue.length ≤ s.cap) →
      ∀ s ∈ hubRun st events, s.queue.length ≤ s.cap := by
  induction events with
  | nil => intro st h; exact h
  | cons e rest ih =>
    intro st h
    exact ih (hubStep st e) (hubStep_queue_le_cap st e h)

theorem trySend_fold_cap_one {P : Type} (xs : List P) :
    ∀ s : HubSub P, s.cap = 1 → s.queue ≠ [] →
      (xs.foldl (fun t x => trySend x t) s).received = s.received ∧
      (xs.foldl (fun t x => trySend x t) s).queue ≠ [] := by
  induction xs with
  | nil => intro s _ hq; exact ⟨rfl, hq⟩
  | cons x rest ih =>
    intro s hcap hq
    have hfull : ¬ s.queue.length < s.cap := by
      rw [hcap]
      have : 0 < s.queue.length := List.length_pos.mpr hq
      omega
    simp only [List.foldl_cons]
    rw [show trySend x s = { s with drops := s.drops + 1 } from by simp [trySend, hfull]]
    exact ih _ hcap hq

theorem trySend_fold_burst {P : Type} (xs : List P) (s : HubSub P) (hcap : s.cap = 1) :
    (xs.foldl (fun t x => trySend x t) s).received.length ≤ s.received.length + 1 := by
  cases xs with
  | nil => simp
  | cons x rest =>
    by_cases hq : s.queue = []
    · have hroom : s.queue.length < s.cap := by
        rw [hcap, hq]; simp
      simp only [List.foldl_cons]
      rw [show trySend x s
          = { s with queue := s.queue ++ [x], received := s.received ++ [x] }
        from by simp [trySend, hroom]]
      have := (trySend_fold_cap_one rest
        { s with queue := s.queue ++ [x], received := s.received ++ [x] }
        hcap (by simp)).1
      rw [this]
      simp
    · simp only [List.foldl_cons]
      by_cases hroom : s.queue.length < s.cap
      · exact absurd hroom (by rw [hcap]; have := List.length_pos.mpr hq; omega)
      · rw [show trySend x s = { s with drops := s.drops + 1 } from by simp [trySend, hroom]]
        have := (trySend_fold_cap_one rest { s with drops := s.drops + 1 } hcap hq).1
        rw [this]
        simp

/-- C4: broadcast offers the item to each subscriber independently — the
post-state of subscriber `i` is `trySend` applied to its own pre-state, so a
full queue drops the item for that subscriber only; no reachable subscriber
queue ever exceeds its capacity; and a capacity-1 subscriber that consumes
nothing receives at most one item from any burst of publishes (in
particular a burst of 50). -/
theorem claim_C4_nonblocking_broadcast :
    (∀ (P : Type) (x : P) (st : List (HubSub P)) (i : Nat),
      (hubStep st (.broadcast x)).get? i = (st.get? i).map (trySend x)) ∧
    (∀ (P : Type) (events : List (HubEvent P)) (s : HubSub P),
      s ∈ hubRun [] events → s.queue.length ≤ s.cap) ∧
    (∀ (P : Type) (xs : List P) (s : HubSub P), s.cap = 1 →
      (xs.foldl (fun t x => trySend x t) s).received.length ≤ s.received.length + 1) := by
  refine ⟨?_, ?_, ?_⟩
  · intro P x st i
    simp [hubStep, List.get?_map]
  · intro P events s hs
    exact hubRun_queue_le_cap events [] (by simp) s hs
  · intro P xs s hcap
    exact trySend_fold_burst xs s hcap

/-- Witness for C4: a capacity-1 subscriber that consumes nothing receives
exactly one item from a burst of 50 broadcasts, and its queue stays within
capacity. -/
theorem claim_C4_nonblocking_broadcast_witness :
    ((List.replicate 50 (0 : Nat)).foldl (fun t x => trySend x t)
        (⟨1, [], [], 0⟩ : HubSub Nat)).received.length ≤ 0 + 1 :=
  claim_C4_nonblocking_broadcast.2.2 Nat (List.replicate 50 0) ⟨1, [], [], 0⟩ rfl

theorem hubRun_received_sublist {P : Type} (events : List (HubEvent P)) :
    ∀ (st : List (HubSub P)) (acc : List P),
      (∀ s ∈ st, s.received.Sublist acc) →
      ∀ s ∈ hubRun st events, s.received.Sublist (acc ++ hubPublishes events) := by
  induction events with
  | nil =>
    intro st acc h s hs
    simpa [hubPublishes] using h s hs
  | cons e rest ih =>
    intro st acc h s hs
    cases e with
    | register c =>
      have h' : ∀ t ∈ hubStep st (.register c), t.received.Sublist acc := by
        intro t ht
        rcases List.mem_append.mp ht with ht | ht
        · exact h t ht
        · simp at ht; subst ht; simp
      have := ih (hubStep st (.register c)) acc h' s hs
      simpa [hubPublishes] using this
    | unregister i =>
      have h' : ∀ t ∈ hubStep st (.unregister i), t.received.Sublist acc := by
        intro t ht
        exact h t ((List.eraseIdx_sublist st i).subset ht)
      have := ih (hubStep st (.unregister i)) acc h' s hs
      simpa [hubPublishes] using this
    | broadcast x =>
      have h' : ∀ t ∈ hubStep st (.broadcast x), t.received.Sublist (acc ++ [x]) := by
        intro t ht
        rcases List.mem_map.mp ht with ⟨u, hu, rfl⟩
        unfold trySend
        by_cases hq : u.queue.length < u.cap
        · simp only [if_pos hq]
          exact (h u hu).append (List.Sublist.refl [x])
        · simp only [if_neg hq]
          exact (h u hu).trans (List.sublist_append_left acc [x])
      have := ih (hubStep st (.broadcast x)) (acc ++ [x]) h' s hs
      simpa [hubPublishes, List.append_assoc] using this
    | consume i =>
      have h' : ∀ t ∈ hubStep st (.consume i), t.received.Sublist acc := by
        intro t ht
        simp only [hubStep] at ht
        cases hget : st.get? i with
        | none => rw [hget] at ht; exact h t ht
        | some u =>
          rw [hget] at ht
          rcases List.mem_or_eq_of_mem_set ht with hmem | rfl
          · exact h t hmem
          · exact h u (List.get?_mem hget)
      have := ih (hubStep st (.consume i)) acc h' s hs
      simpa [hubPublishes] using this

theorem trySend_fold_drops_mono {P : Type} (xs : List P) :
    ∀ s : HubSub P, s.drops ≤ (xs.foldl (fun t x => trySend x t) s).drops := by
  induction xs with
  | nil => intro s; simp
  | cons x rest ih =>
    intro s
    have h1 : s.drops ≤ (trySend x s).drops := by
      unfold trySend
      by_cases hq : s.queue.length < s.cap <;> simp [hq]
    exact le_trans h1 (ih (trySend x s))

theorem trySend_fold_no_drop {P : Type} (xs : List P) :
    ∀ s : HubSub P, (xs.foldl (fun t x => trySend x t) s).drops = s.drops →
      (xs.foldl (fun t x => trySend x t) s).received = s.received ++ xs := by
  induction xs with
  | nil => intro s _; simp
  | cons x rest ih =>
    intro s hdrops
    simp only [List.foldl_cons] at hdrops ⊢
    by_cases hq : s.queue.length < s.cap
    · rw [show trySend x s
          = { s with queue := s.queue ++ [x], received := s.received ++ [x] }
        from by simp [trySend, hq]] at hdrops ⊢
      rw [ih _ hdrops]
      simp
    · rw [show trySend x s = { s with drops := s.drops + 1 } from by simp [trySend, hq]] at hdrops
      have := trySend_fold_drops_mono rest { s with drops := s.drops + 1 }
      simp at this
      omega

theorem hubRun_broadcasts_map {P : Type} (xs : List P) :
    ∀ st : List (HubSub P),
      hubRun st (xs.map HubEvent.broadcast)
        = st.map (fun s => xs.foldl (fun t x => trySend x t) s) := by
  induction xs with
  | nil => intro st; simp [hubRun]
  | cons x rest ih =>
    intro st
    simp only [List.map_cons, hubRun, List.foldl_cons]
    have := ih (hubStep st (.broadcast x))
    simp only [hubRun] at this
    rw [this]
    simp only [hubStep, List.map_map]
    rfl

/-- C7: every subscriber's received sequence is a subsequence of the publish
sequence, in publish order; and a subscriber that drops zero messages over a
run of broadcasts receives exactly the publish sequence. -/
theorem claim_C7_per_subscriber_order :
    (∀ (P : Type) (events : List (HubEvent P)) (s : HubSub P),
      s ∈ hubRun [] events → s.received.Sublist (hubPublishes events)) ∧
    (∀ (P : Type) (c : Nat) (xs : List P) (s : HubSub P),
      s ∈ hubRun [⟨c, [], [], 0⟩] (xs.map HubEvent.broadcast) → s.drops = 0 →
      s.received = xs) := by
  constructor
  · intro P events s hs
    have := hubRun_received_sublist events [] [] (by simp) s hs
    simpa using this
  · intro P c xs s hs hdrops
    rw [hubRun_broadcasts_map] at hs
    simp only [List.map_cons, List.map_nil, List.mem_singleton] at hs
    subst hs
    have := trySend_fold_no_drop xs (⟨c, [], [], 0⟩ : HubSub P) (by simpa using hdrops)
    simpa using this

/-- Witness for C7 at a concrete two-publish trace with one subscriber of
capacity 2. -/
theorem claim_C7_per_subscriber_order_witness :
    (⟨2, [7, 9], [7, 9], 0⟩ : HubSub Nat).received = [7, 9] :=
  claim_C7_per_subscriber_order.2 Nat 2 [7, 9] ⟨2, [7, 9], [7, 9], 0⟩ (by decide) rfl

/-! ## Dynamic packet registry (pkg/protocol/dynamic_decoder.go)

Go `int` fields (`ByteSize`, `Offset`, `Size`) are modelled as `Int`; ids as
`Nat` (uint8); the registry map as a function `Nat → Option DynamicPacketDef`.
The registry-mutating `RegisterDynamic` returns the new registry plus an
optional error message, mirroring the Go global-state update. -/

structure DynamicFieldDef where
  name : String
  ctype : String
  offset : Int
  size : Int
  deriving Repr, DecidableEq

structure DynamicPacketDef where
  id : Nat
  structName : String
  packed : Bool
  byteSize : Int
  fields : List DynamicFieldDef
  deriving Repr, DecidableEq

def DynRegistry : Type := Nat → Option DynamicPacketDef

/-- ASCII fragment of Go `unicode.IsSpace` (type tags in scope are ASCII). -/
def isSpaceChar (c : Char) : Bool :=
  c = ' ' || c = '\t' || c = '\n' || c = '\r' || c = '\x0b' || c = '\x0c'

/-- Go `strings.TrimSpace` on a character list. -/
def trimSpaceChars (l : List Char) : List Char :=
  ((l.dropWhile isSpaceChar).reverse.dropWhile isSpaceChar).reverse

/-- One pass of Go `strings.ReplaceAll(s, "  ", " ")` (leftmost,
non-overlapping). -/
def replaceDoubleSpace : List Char → List Char
  | ' ' :: ' ' :: rest => ' ' :: replaceDoubleSpace rest
  | c :: rest => c :: replaceDoubleSpace rest
  | [] => []

def hasDoubleSpace : List Char → Bool
  | ' ' :: ' ' :: _ => true
  | _ :: rest => hasDoubleSpace rest
  | [] => false

/-- The `for strings.Contains(s, "  ")` loop of `normalizeDynamicType`; each
pass strictly shortens the string, so fuel `l.length` always suffices. -/
def collapseSpacesLoop : Nat → List Char → List Char
  | 0, l => l
  | fuel + 1, l =>
    if hasDoubleSpace l then collapseSpacesLoop fuel (replaceDoubleSpace l) else l

/-- Go `strings.TrimPrefix`. -/
def trimLeading (pre l : List Char) : List Char :=
  if pre.isPrefixOf l then l.drop pre.length else l

/-- Go `protocol.normalizeDynamicType`: trim and lowercase, tabs to spaces,
collapse double spaces, strip a leading `const ` then a leading `volatile `,
trim again. -/
def normalizeDynamicType (raw : String) : String :=
  let l1 := (trimSpaceChars raw.toList).map Char.toLower
  let l2 := l1.map (fun c => if c = '\t' then ' ' else c)
  let l3 := collapseSpacesLoop l2.length l2
  let l4 := trimLeading "const ".toList l3
  let l5 := trimLeading "volatile ".toList l4
  String.mk (trimSpaceChars l5)

/-- Go `protocol.dynamicTypeSize`. -/
def dynamicTypeSize (ctype : String) : Option Int :=
  if ctype = "float" then some 4
  else if ctype = "double" then some 8
  else if ctype = "int8_t" ∨ ctype = "uint8_t" ∨ ctype = "bool" ∨ ctype = "_bool" then some 1
  else if ctype = "int16_t" ∨ ctype = "uint16_t" then some 2
  else if ctype = "int32_t" ∨ ctype = "uint32_t" then some 4
  else if ctype = "int64_t" ∨ ctype = "uint64_t" then some 8
  else none

/-- Decoded field values.  Floats are carried as their IEEE-754 bit
patterns (`math.Float32frombits` / `math.Float64frombits` applied to the
little-endian load). -/
inductive DynValue where
  | f32 (bits : Nat)
  | f64 (bits : Nat)
  | iv (v : Int)
  | uv (v : Nat)
  | bv (v : Bool)
  deriving Repr, DecidableEq

/-- Little-endian value of a byte list. -/
def leNumber : List Nat → Nat
  | [] => 0
  | b :: rest => b + 256 * leNumber rest

/-- `binary.LittleEndian.UintN`: little-endian load of the first `n` bytes
(Go panics when fewer than `n` bytes are present; all call sites pass slices
of exactly the field size). -/
def leUint (n : Nat) (data : List Nat) : Nat :=
  leNumber (data.take n)

/-- Two's-complement reinterpretation of a `w`-bit unsigned load. -/
def toSigned (w : Nat) (v : Nat) : Int :=
  if v < 2 ^ (w - 1) then (v : Int) else (v : Int) - 2 ^ w

/-- Go `protocol.decodeDynamicValue`. -/
def decodeDynamicValue (ctype : String) (data : List Nat) : Option DynValue :=
  if ctype = "float" then some (.f32 (leUint 4 data))
  else if ctype = "double" then some (.f64 (leUint 8 data))
  else if ctype = "int8_t" then some (.iv (toSigned 8 (data.headD 0)))
  else if ctype = "uint8_t" then some (.uv (data.headD 0))
  else if ctype = "int16_t" then some (.iv (toSigned 16 (leUint 2 data)))
  else if ctype = "uint16_t" then some (.uv (leUint 2 data))
  else if ctype = "int32_t" then some (.iv (toSigned 32 (leUint 4 data)))
  else if ctype = "uint32_t" then some (.uv (leUint 4 data))
  else if ctype = "int64_t" then some (.iv (toSigned 64 (leUint 8 data)))
  else if ctype = "uint64_t" then some (.uv (leUint 8 data))
  else if ctype = "bool" ∨ ctype = "_bool" then some (.bv (data.headD 0 != 0))
  else none

/-- The per-field validation inside the `RegisterDynamic` loop, producing the
normalized field on success. -/
def normalizeField (byteSize : Int) (f : DynamicFieldDef) : Except String DynamicFieldDef :=
  match dynamicTypeSize (normalizeDynamicType f.ctype) with
  | none => .error ("unsupported c type " ++ f.ctype)
  | some sz =>
    if f.size ≠ sz then .error ("field " ++ f.name ++ " size mismatch")
    else if f.offset < 0 then .error ("field " ++ f.name ++ " has invalid offset")
    else if f.offset + f.size > byteSize then .error ("field " ++ f.name ++ " exceeds packet size")
    else .ok { name := f.name, ctype := normalizeDynamicType f.ctype,
               offset := f.offset, size := f.size }

def normalizeFields (byteSize : Int) : List DynamicFieldDef → Except String (List DynamicFieldDef)
  | [] => .ok []
  | f :: rest =>
    match normalizeField byteSize f with
    | .error e => .error e
    | .ok nf =>
      match normalizeFields byteSize rest with
      | .error e => .error e
      | .ok nfs => .ok (nf :: nfs)

/-- The normalized definition `RegisterDynamic` stores on success. -/
def normalizeDynamicDef (id : Nat) (d : DynamicPacketDef) : Except String DynamicPacketDef :=
  (normalizeFields d.byteSize d.fields).map
    (fun nfs => ⟨id, d.structName, d.packed, d.byteSize, nfs⟩)

/-- Go `protocol.RegisterDynamic`: validate, then install the normalized
definition under `id`; on any validation failure the registry is returned
unchanged together with the error. -/
def registerDynamic (reg : DynRegistry) (id : Nat) (d : DynamicPacketDef) :
    DynRegistry × Option String :=
  if d.byteSize ≤ 0 then (reg, some "invalid byte size")
  else if d.fields.isEmpty then (reg, some "dynamic packet requires at least one field")
  else
    match normalizeDynamicDef id d with
    | .error e => (reg, some e)
    | .ok nd => (fun k => if k = id then some nd else reg k, none)

/-- The loop of Go `protocol.parseDynamicPacket` over the schema fields. -/
def parseDynamicFields (payload : List Nat) :
    List DynamicFieldDef → Except String (List (String × DynValue))
  | [] => .ok []
  | f :: rest =>
    if f.offset + f.size > (payload.length : Int) then
      .error ("field " ++ f.name ++ " out of range")
    else
      match decodeDynamicValue f.ctype ((payload.drop f.offset.toNat).take f.size.toNat) with
      | none => .error ("decode field " ++ f.name)
      | some v =>
        match parseDynamicFields payload rest with
        | .error e => .error e
        | .ok out => .ok ((f.name, v) :: out)

/-- Go `protocol.parseDynamicPacket`: `none` when no schema is registered for
`id`; otherwise the decode result (size check, then per-field decode). -/
def parseDynamicPacket (reg : DynRegistry) (id : Nat) (payload : List Nat) :
    Option (Except String (List (String × DynValue))) :=
  match reg id with
  | none => none
  | some d =>
    if (payload.length : Int) ≠ d.byteSize then
      some (.error "payload size does not match dynamic packet size")
    else
      some (parseDynamicFields payload d.fields)

/-- Spec-side invalidity of one field, as the claim words it: unsupported
type tag (after normalization), declared size differing from the tag's size,
negative offset, or not fitting within `byte_size`. -/
def dynFieldInvalid (byteSize : Int) (f : DynamicFieldDef) : Bool :=
  match dynamicTypeSize (normalizeDynamicType f.ctype) with
  | none => true
  | some sz => decide (f.size ≠ sz ∨ f.offset < 0 ∨ f.offset + f.size > byteSize)

/-- Spec-side invalidity of a definition: `byte_size ≤ 0`, empty field list,
or some invalid field. -/
def invalidDynamicDef (d : DynamicPacketDef) : Bool :=
  decide (d.byteSize ≤ 0) || d.fields.isEmpty || d.fields.any (dynFieldInvalid d.byteSize)

/-- Well-formedness of a stored (already normalized) field. -/
def wfDynField (byteSize : Int) (f : DynamicFieldDef) : Bool :=
  match dynamicTypeSize f.ctype with
  | none => false
  | some sz => decide (f.size = sz ∧ 0 ≤ f.offset ∧ f.offset + f.size ≤ byteSize)

/-- Well-formedness of a stored definition. -/
def wfDynDef (d : DynamicPacketDef) : Bool :=
  decide (0 < d.byteSize) && !d.fields.isEmpty && d.fields.all (wfDynField d.byteSize)

theorem normalizeField_error_iff (bs : Int) (f : DynamicFieldDef) :
    (∃ e, normalizeField bs f = .error e) ↔ dynFieldInvalid bs f = true := by
  unfold normalizeField dynFieldInvalid
  cases h : dynamicTypeSize (normalizeDynamicType f.ctype) with
  | none => simp [h]
  | some sz =>
    simp only [h]
    by_cases h1 : f.size ≠ sz
    · simp [h1]
    · by_cases h2 : f.offset < 0
      · simp [h1, h2]
      · by_cases h3 : f.offset + f.size > bs
        · simp [h1, h2, h3]
        · simp [h1, h2, h3]

theorem normalizeField_ok_wf (bs : Int) (f nf : DynamicFieldDef)
    (h : normalizeField bs f = .ok nf) : wfDynField bs nf = true := by
  unfold normalizeField at h
  cases ht : dynamicTypeSize (normalizeDynamicType f.ctype) with
  | none => rw [ht] at h; simp at h
  | some sz =>
    simp only [ht] at h
    by_cases h1 : f.size ≠ sz
    · rw [if_pos h1] at h; simp at h
    · rw [if_neg h1] at h
      by_cases h2 : f.offset < 0
      · rw [if_pos h2] at h; simp at h
      · rw [if_neg h2] at h
        by_cases h3 : f.offset + f.size > bs
        · rw [if_pos h3] at h; simp at h
        · rw [if_neg h3] at h
          simp only [Except.ok.injEq] at h
          subst h
          simp only [wfDynField, ht, decide_eq_true_eq]
          exact ⟨by omega, by omega, by omega⟩

theorem normalizeFields_error_iff (bs : Int) (fs : List DynamicFieldDef) :
    (∃ e, normalizeFields bs fs = .error e) ↔ fs.any (dynFieldInvalid bs) = true := by
  induction fs with
  | nil => simp [normalizeFields]
  | cons f rest ih =>
    simp only [normalizeFields, List.any_cons]
    cases hf : normalizeField bs f with
    | error e =>
      have hv : dynFieldInvalid bs f = true := (normalizeField_error_iff bs f).mp ⟨e, hf⟩
      simp [hv]
    | ok nf =>
      have hv : dynFieldInvalid bs f = false := by
        by_contra hc
        rcases (normalizeField_error_iff bs f).mpr (by simpa using hc) with ⟨e, he⟩
        rw [hf] at he; simp at he
      rw [hv]
      cases hr : normalizeFields bs rest with
      | error e2 =>
        have hv2 : rest.any (dynFieldInvalid bs) = true := ih.mp ⟨e2, hr⟩
        simp [hv2]
      | ok nfs =>
        have hne : ¬ ∃ e, normalizeFields bs rest = Except.error e := by
          rintro ⟨e, he⟩; rw [hr] at he; simp at he
        have hv2 : rest.any (dynFieldInvalid bs) = false := by
          by_contra hc
          exact hne (ih.mpr (by simpa using hc))
        simp [hv2]

theorem normalizeFields_ok_wf (bs : Int) :
    ∀ fs nfs, normalizeFields bs fs = .ok nfs →
      (∀ nf ∈ nfs, wfDynField bs nf = true) ∧ nfs.length = fs.length := by
  intro fs
  induction fs with
  | nil =>
    intro nfs h
    simp only [normalizeFields, Except.ok.injEq] at h
    subst h
    simp
  | cons f rest ih =>
    intro nfs h
    simp only [normalizeFields] at h
    cases hf : normalizeField bs f with
    | error e => rw [hf] at h; simp at h
    | ok nf =>
      rw [hf] at h
      cases hr : normalizeFields bs rest with
      | error e => rw [hr] at h; simp at h
      | ok nfs' =>
        rw [hr] at h
        simp only [Except.ok.injEq] at h
        subst h
        obtain ⟨hwf, hlen⟩ := ih nfs' hr
        refine ⟨?_, by simp [hlen]⟩
        intro x hx
        rcases List.mem_cons.mp hx with rfl | hx
        · exact normalizeField_ok_wf bs f x hf
        · exact hwf x hx

/-- C5: `RegisterDynamic` errors exactly when the definition is invalid
(`byte_size ≤ 0`, empty fields, unsupported type tag, size mismatch,
negative offset, or a field exceeding `byte_size`), and on success installs
the normalized definition under `id`, leaving every other id unchanged.  In
particular a `byte_size` of zero is rejected. -/
theorem claim_C5_register_validation :
    (∀ (reg : DynRegistry) (id : Nat) (d : DynamicPacketDef),
      (registerDynamic reg id d).2 ≠ none ↔ invalidDynamicDef d = true) ∧
    (∀ (reg : DynRegistry) (id : Nat) (d : DynamicPacketDef),
      (registerDynamic reg id d).2 = none →
        (registerDynamic reg id d).1 id = (normalizeDynamicDef id d).toOption ∧
        ∀ k, k ≠ id → (registerDynamic reg id d).1 k = reg k) ∧
    (registerDynamic (fun _ => none) 7
      ⟨0, "Zero", true, 0, [⟨"a", "uint8_t", 0, 1⟩]⟩).2 ≠ none := by
  refine ⟨?_, ?_, by decide⟩
  · intro reg id d
    unfold registerDynamic invalidDynamicDef
    by_cases hb : d.byteSize ≤ 0
    · simp [hb]
    · by_cases he : d.fields.isEmpty
      · simp [hb, he]
      · simp only [if_neg hb, if_neg he]
        unfold normalizeDynamicDef
        cases hn : normalizeFields d.byteSize d.fields with
        | error e =>
          have hv : d.fields.any (dynFieldInvalid d.byteSize) = true :=
            (normalizeFields_error_iff _ _).mp ⟨e, hn⟩
          simp [hv, hb, he, Except.map]
        | ok nfs =>
          have hv : d.fields.any (dynFieldInvalid d.byteSize) = false := by
            by_contra hc
            rcases (normalizeFields_error_iff _ _).mpr (by simpa using hc) with ⟨e, he'⟩
            rw [hn] at he'; simp at he'
          simp [hv, hb, he, Except.map]
  · intro reg id d hnone
    unfold registerDynamic at hnone ⊢
    by_cases hb : d.byteSize ≤ 0
    · simp [hb] at hnone
    · by_cases he : d.fields.isEmpty
      · simp [hb, he] at hnone
      · simp only [if_neg hb, if_neg he] at hnone ⊢
        cases hn : normalizeDynamicDef id d with
        | error e => rw [hn] at hnone; simp at hnone
        | ok nd =>
          exact ⟨by simp [Except.toOption], fun k hk => by simp [hk]⟩

/-- Witness for C5 at a concrete valid registration over the empty
registry. -/
theorem claim_C5_register_validation_witness :
    (registerDynamic (fun _ => none) 3
        ⟨0, "S", true, 1, [⟨"a", "uint8_t", 0, 1⟩]⟩).1 3
      = (normalizeDynamicDef 3 ⟨0, "S", true, 1, [⟨"a", "uint8_t", 0, 1⟩]⟩).toOption :=
  (claim_C5_register_validation.2.1 (fun _ => none) 3
    ⟨0, "S", true, 1, [⟨"a", "uint8_t", 0, 1⟩]⟩ rfl).1

/-- C9: a failed `RegisterDynamic` leaves the registry untouched — every
validation error path returns before the single map insertion. -/
theorem claim_C9_failed_register_unchanged (reg : DynRegistry) (id : Nat)
    (d : DynamicPacketDef) (e : String)
    (h : (registerDynamic reg id d).2 = some e) :
    (registerDynamic reg id d).1 = reg := by
  unfold registerDynamic at h ⊢
  by_cases hb : d.byteSize ≤ 0
  · simp [hb]
  · by_cases hem : d.fields.isEmpty
    · simp [hb, hem]
    · simp only [if_neg hb, if_neg hem] at h ⊢
      cases hn : normalizeDynamicDef id d with
      | error e2 => rfl
      | ok nd => rw [hn] at h; simp at h

/-- Witness for C9 at the concrete zero-size registration. -/
theorem claim_C9_failed_register_unchanged_witness :
    (registerDynamic (fun _ => none) 7
        ⟨0, "Zero", true, 0, [⟨"a", "uint8_t", 0, 1⟩]⟩).1 = (fun _ => none) :=
  claim_C9_failed_register_unchanged (fun _ => none) 7
    ⟨0, "Zero", true, 0, [⟨"a", "uint8_t", 0, 1⟩]⟩ "invalid byte size" rfl

/-- The bytes of one field, as the spec words it: `size` bytes starting at
`offset` of the body. -/
def specFieldBytes (payload : List Nat) (f : DynamicFieldDef) : List Nat :=
  (payload.drop f.offset.toNat).take f.size.toNat

/-- Field interpretation as the claim words it: little-endian value for
multi-byte integers (two's complement for the signed ones), the IEEE-754
bit pattern for float/double, and non-zero byte means true for bool. -/
def specInterpTag (tag : String) (bytes : List Nat) : Option DynValue :=
  if tag = "float" then some (.f32 (leNumber bytes))
  else if tag = "double" then some (.f64 (leNumber bytes))
  else if tag = "int8_t" then some (.iv (toSigned 8 (leNumber bytes)))
  else if tag = "uint8_t" then some (.uv (leNumber bytes))
  else if tag = "int16_t" then some (.iv (toSigned 16 (leNumber bytes)))
  else if tag = "uint16_t" then some (.uv (leNumber bytes))
  else if tag = "int32_t" then some (.iv (toSigned 32 (leNumber bytes)))
  else if tag = "uint32_t" then some (.uv (leNumber bytes))
  else if tag = "int64_t" then some (.iv (toSigned 64 (leNumber bytes)))
  else if tag = "uint64_t" then some (.uv (leNumber bytes))
  else if tag = "bool" ∨ tag = "_bool" then some (.bv (leNumber bytes != 0))
  else none

theorem dynamicTypeSize_pos {tag : String} {sz : Int} (h : dynamicTypeSize tag = some sz) :
    0 < sz := by
  unfold dynamicTypeSize at h
  split_ifs at h <;>
    first
      | (simp only [Option.some.injEq] at h; omega)
      | simp at h

theorem dynamicTypeSize_tags {tag : String} {sz : Int} (h : dynamicTypeSize tag = some sz) :
    tag = "float" ∨ tag = "double" ∨ tag = "int8_t" ∨ tag = "uint8_t" ∨ tag = "bool" ∨
    tag = "_bool" ∨ tag = "int16_t" ∨ tag = "uint16_t" ∨ tag = "int32_t" ∨ tag = "uint32_t" ∨
    tag = "int64_t" ∨ tag = "uint64_t" := by
  unfold dynamicTypeSize at h
  split_ifs at h <;> first | tauto | simp at h

theorem singleton_of_length_one {bytes : List Nat} (h : bytes.length = 1) :
    ∃ b, bytes = [b] := by
  cases bytes with
  | nil => simp at h
  | cons b t =>
    cases t with
    | nil => exact ⟨b, rfl⟩
    | cons c u => simp at h

theorem decodeDynamicValue_eq_specInterpTag (tag : String) (bytes : List Nat) (sz : Int)
    (hsz : dynamicTypeSize tag = some sz) (hlen : (bytes.length : Int) = sz) :
    decodeDynamicValue tag bytes = specInterpTag tag bytes := by
  rcases dynamicTypeSize_tags hsz with rfl | rfl | rfl | rfl | rfl | rfl | rfl | rfl
    | rfl | rfl | rfl | rfl
  case _ =>  -- float
    simp [dynamicTypeSize] at hsz
    have hl : bytes.length = 4 := by omega
    have ht : bytes.take 4 = bytes := by rw [← hl]; exact List.take_length _
    simp [decodeDynamicValue, specInterpTag, leUint, ht]
  case _ =>  -- double
    simp [dynamicTypeSize] at hsz
    have hl : bytes.length = 8 := by omega
    have ht : bytes.take 8 = bytes := by rw [← hl]; exact List.take_length _
    simp [decodeDynamicValue, specInterpTag, leUint, ht]
  case _ =>  -- int8_t
    simp [dynamicTypeSize] at hsz
    have hl : bytes.length = 1 := by omega
    obtain ⟨b, rfl⟩ := singleton_of_length_one hl
    simp [decodeDynamicValue, specInterpTag, leNumber]
  case _ =>  -- uint8_t
    simp [dynamicTypeSize] at hsz
    have hl : bytes.length = 1 := by omega
    obtain ⟨b, rfl⟩ := singleton_of_length_one hl
    simp [decodeDynamicValue, specInterpTag, leNumber]
  case _ =>  -- bool
    simp [dynamicTypeSize] at hsz
    have hl : bytes.length = 1 := by omega
    obtain ⟨b, rfl⟩ := singleton_of_length_one hl
    simp [decodeDynamicValue, specInterpTag, leNumber]
  case _ =>  -- _bool
    simp [dynamicTypeSize] at hsz
    have hl : bytes.length = 1 := by omega
    obtain ⟨b, rfl⟩ := singleton_of_length_one hl
    simp [decodeDynamicValue, specInterpTag, leNumber]
  case _ =>  -- int16_t
    simp [dynamicTypeSize] at hsz
    have hl : bytes.length = 2 := by omega
    have ht : bytes.take 2 = bytes := by rw [← hl]; exact List.take_length _
    simp [decodeDynamicValue, specInterpTag, leUint, ht]
  case _ =>  -- uint16_t
    simp [dynamicTypeSize] at hsz
    have hl : bytes.length = 2 := by omega
    have ht : bytes.take 2 = bytes := by rw [← hl]; exact List.take_length _
    simp [decodeDynamicValue, specInterpTag, leUint, ht]
  case _ =>  -- int32_t
    simp [dynamicTypeSize] at hsz
    have hl : bytes.length = 4 := by omega
    have ht : bytes.take 4 = bytes := by rw [← hl]; exact List.take_length _
    simp [decodeDynamicValue, specInterpTag, leUint, ht]
  case _ =>  -- uint32_t
    simp [dynamicTypeSize] at hsz
    have hl : bytes.length = 4 := by omega
    have ht : bytes.take 4 = bytes := by rw [← hl]; exact List.take_length _
    simp [decodeDynamicValue, specInterpTag, leUint, ht]
  case _ =>  -- int64_t
    simp [dynamicTypeSize] at hsz
    have hl : bytes.length = 8 := by omega
    have ht : bytes.take 8 = bytes := by rw [← hl]; exact List.take_length _
    simp [decodeDynamicValue, specInterpTag, leUint, ht]
  case _ =>  -- uint64_t
    simp [dynamicTypeSize] at hsz
    have hl : bytes.length = 8 := by omega
    have ht : bytes.take 8 = bytes := by rw [← hl]; exact List.take_length _
    simp [decodeDynamicValue, specInterpTag, leUint, ht]

theorem decodeDynamicValue_isSome {tag : String} {sz : Int}
    (h : dynamicTypeSize tag = some sz) (bytes : List Nat) :
    ∃ v, decodeDynamicValue tag bytes = some v := by
  rcases dynamicTypeSize_tags h with rfl | rfl | rfl | rfl | rfl | rfl | rfl | rfl
    | rfl | rfl | rfl | rfl <;> simp [decodeDynamicValue]

theorem parseDynamicFields_ok (bsz : Int) (payload : List Nat)
    (hplen : (payload.length : Int) = bsz) :
    ∀ fs, (∀ f ∈ fs, wfDynField bsz f = true) →
      parseDynamicFields payload fs
        = .ok (fs.map (fun f => (f.name,
            (specInterpTag f.ctype (specFieldBytes payload f)).getD (.uv 0)))) := by
  intro fs
  induction fs with
  | nil => intro _; simp [parseDynamicFields]
  | cons f rest ih =>
    intro hwf
    have hwff := hwf f (by simp)
    have hwfr : ∀ g ∈ rest, wfDynField bsz g = true := fun g hg => hwf g (by simp [hg])
    unfold wfDynField at hwff
    cases ht : dynamicTypeSize f.ctype with
    | none => rw [ht] at hwff; simp at hwff
    | some sz =>
      rw [ht] at hwff
      simp only [decide_eq_true_eq] at hwff
      obtain ⟨hsz, hoff, hfit⟩ := hwff
      have hszpos : 0 < sz := dynamicTypeSize_pos ht
      have hcheck : ¬ f.offset + f.size > (payload.length : Int) := by omega
      have hslice : ((specFieldBytes payload f).length : Int) = sz := by
        unfold specFieldBytes
        simp only [List.length_take, List.length_drop]
        omega
      have heq := decodeDynamicValue_eq_specInterpTag f.ctype
        (specFieldBytes payload f) sz ht hslice
      obtain ⟨v, hv⟩ := decodeDynamicValue_isSome ht (specFieldBytes payload f)
      have hspec : specInterpTag f.ctype (specFieldBytes payload f) = some v := by
        rw [← heq]; exact hv
      simp only [parseDynamicFields, if_neg hcheck]
      rw [show (payload.drop f.offset.toNat).take f.size.toNat
          = specFieldBytes payload f from rfl]
      rw [hv, ih hwfr]
      simp [hspec]

theorem registerDynamic_stores_wf (reg : DynRegistry) (id : Nat) (d : DynamicPacketDef)
    (hnone : (registerDynamic reg id d).2 = none) :
    ∀ nd, (registerDynamic reg id d).1 id = some nd → wfDynDef nd = true := by
  intro nd hnd
  unfold registerDynamic at hnone hnd
  by_cases hb : d.byteSize ≤ 0
  · simp [hb] at hnone
  · by_cases hem : d.fields.isEmpty
    · simp [hb, hem] at hnone
    · simp only [if_neg hb, if_neg hem] at hnone hnd
      cases hn : normalizeDynamicDef id d with
      | error e => rw [hn] at hnone; simp at hnone
      | ok nd2 =>
        rw [hn] at hnd
        simp at hnd
        subst hnd
        unfold normalizeDynamicDef at hn
        cases hnf : normalizeFields d.byteSize d.fields with
        | error e => rw [hnf] at hn; simp [Except.map] at hn
        | ok nfs =>
          rw [hnf] at hn
          simp only [Except.map, Except.ok.injEq] at hn
          subst hn
          obtain ⟨hwfs, hlen⟩ := normalizeFields_ok_wf d.byteSize d.fields nfs hnf
          unfold wfDynDef
          simp only [Bool.and_eq_true, decide_eq_true_eq, List.all_eq_true,
            Bool.not_eq_true']
          refine ⟨⟨by omega, ?_⟩, ?_⟩
          · have : d.fields ≠ [] := by
              intro hc
              rw [hc] at hem
              simp at hem
            have : nfs ≠ [] := by
              intro hc
              apply this
              have := hlen
              rw [hc] at this
              simpa using (List.length_eq_zero.mp this.symm)
            simpa [List.isEmpty_iff] using this
          · intro nf hnf2
            exact hwfs nf hnf2

/-- C6: for a registered schema, a body whose length differs from
`byte_size` yields a decode error; a body of exactly `byte_size` bytes
decodes to the mapping that assigns every field its `size` bytes at its
`offset` interpreted per its type tag (little-endian integers, IEEE-754 bit
patterns, non-zero byte as true); any definition installed by a successful
`RegisterDynamic` is well-formed, so the second part applies to it; and the
concrete E3 schema decodes `F4 FF FF FF 7B 00 00 00` to
`value = -12, tick_ms = 123`. -/
theorem claim_C6_dynamic_decode :
    (∀ (reg : DynRegistry) (id : Nat) (body : List Nat) (d : DynamicPacketDef),
      reg id = some d → (body.length : Int) ≠ d.byteSize →
      ∃ e, parseDynamicPacket reg id body = some (.error e)) ∧
    (∀ (reg : DynRegistry) (id : Nat) (body : List Nat) (d : DynamicPacketDef),
      reg id = some d → wfDynDef d = true → (body.length : Int) = d.byteSize →
      parseDynamicPacket reg id body
        = some (.ok (d.fields.map (fun f => (f.name,
            (specInterpTag f.ctype (specFieldBytes body f)).getD (.uv 0)))))) ∧
    (∀ (reg : DynRegistry) (id : Nat) (d : DynamicPacketDef),
      (registerDynamic reg id d).2 = none →
      ∀ nd, (registerDynamic reg id d).1 id = some nd → wfDynDef nd = true) ∧
    (parseDynamicPacket
      ((registerDynamic (fun _ => none) 0x42
        ⟨0, "Sample", true, 8,
          [⟨"value", "int32_t", 0, 4⟩, ⟨"tick_ms", "uint32_t", 4, 4⟩]⟩).1)
      0x42 [0xF4, 0xFF, 0xFF, 0xFF, 0x7B, 0, 0, 0]
      = some (.ok [("value", .iv (-12)), ("tick_ms", .uv 123)])) := by
  refine ⟨?_, ?_, registerDynamic_stores_wf, rfl⟩
  · intro reg id body d hreg hne
    unfold parseDynamicPacket
    rw [hreg]
    simp [hne]
  · intro reg id body d hreg hwf hlen
    simp only [parseDynamicPacket, hreg]
    rw [if_neg (by omega : ¬ (body.length : Int) ≠ d.byteSize)]
    have hall : ∀ f ∈ d.fields, wfDynField d.byteSize f = true := by
      unfold wfDynDef at hwf
      simp only [Bool.and_eq_true, List.all_eq_true] at hwf
      exact hwf.2
    rw [parseDynamicFields_ok d.byteSize body hlen d.fields hall]

/-- Witness for C6 at the E3 schema: the registry holding the normalized
schema under id 0x42, a matching 8-byte body, and the resulting mapping. -/
theorem claim_C6_dynamic_decode_witness :
    parseDynamicPacket
      (fun k => if k = 0x42 then
        some ⟨0x42, "Sample", true, 8,
          [⟨"value", "int32_t", 0, 4⟩, ⟨"tick_ms", "uint32_t", 4, 4⟩]⟩ else none)
      0x42 [0xF4, 0xFF, 0xFF, 0xFF, 0x7B, 0x00, 0x00, 0x00]
      = some (.ok
        (([⟨"value", "int32_t", 0, 4⟩, ⟨"tick_ms", "uint32_t", 4, 4⟩] :
            List DynamicFieldDef).map (fun f => (f.name,
          (specInterpTag f.ctype
            (specFieldBytes [0xF4, 0xFF, 0xFF, 0xFF, 0x7B, 0x00, 0x00, 0x00] f)).getD
            (.uv 0))))) :=
  claim_C6_dynamic_decode.2.1
    (fun k => if k = 0x42 then
      some ⟨0x42, "Sample", true, 8,
        [⟨"value", "int32_t", 0, 4⟩, ⟨"tick_ms", "uint32_t", 4, 4⟩]⟩ else none)
    0x42 [0xF4, 0xFF, 0xFF, 0xFF, 0x7B, 0x00, 0x00, 0x00]
    ⟨0x42, "Sample", true, 8, [⟨"value", "int32_t", 0, 4⟩, ⟨"tick_ms", "uint32_t", 4, 4⟩]⟩
    rfl (by decide) (by decide)

/-- C10: `RegisterDynamic` normalizes type tags before validation and
storage — `const  Float` (stray double space, mixed case, const qualifier)
is accepted and stored as `float`, and `_bool` is accepted as a 1-byte
boolean alongside `bool`. -/
theorem claim_C10_type_tag_normalization :
    normalizeDynamicType "const  Float" = "float" ∧
    normalizeDynamicType " volatile\tDouble " = "double" ∧
    dynamicTypeSize "_bool" = some 1 ∧
    dynamicTypeSize "bool" = some 1 ∧
    decodeDynamicValue "_bool" [2] = some (.bv true) ∧
    decodeDynamicValue "bool" [0] = some (.bv false) ∧
    (registerDynamic (fun _ => none) 9
        ⟨0, "S", true, 4, [⟨"x", "const  Float", 0, 4⟩]⟩).2 = none ∧
    ∃ nd, (registerDynamic (fun _ => none) 9
        ⟨0, "S", true, 4, [⟨"x", "const  Float", 0, 4⟩]⟩).1 9 = some nd ∧
      nd.fields.map (fun f => f.ctype) = ["float"] := by
  exact ⟨rfl, rfl, rfl, rfl, rfl, rfl, rfl, ⟨_, rfl, rfl⟩⟩

/-! ## Source supervisor (transport Listener reconnect loop)

Durations are nanosecond counts (`time.Duration`) modelled as `Nat`. -/

structure ListenerCfg where
  reconnect : Nat
  reconnectMax : Nat
  deriving Repr, DecidableEq

/-- Defaults set in `StartListener`: 1 s base and 30 s cap. -/
def defaultListenerCfg : ListenerCfg :=
  { reconnect := 1000000000, reconnectMax := 30000000000 }

/-- `Listener.sleepBackoff`: wait `min(reconnect * attempt, reconnectMax)`. -/
def sleepBackoffWait (cfg : ListenerCfg) (attempt : Nat) : Nat :=
  min (cfg.reconnect * attempt) cfg.reconnectMax

/-- The sleeps performed by `Listener.run` over a trace of dial outcomes
(`true` = dial succeeded, the framer ran and the connection ended): a dial
failure increments the consecutive-failure counter and sleeps the backoff
for the new count; a success resets the counter to zero and sleeps
`sleepBackoff(ctx, 1)` after the connection ends. -/
def listenerSleeps (cfg : ListenerCfg) : Nat → List Bool → List Nat
  | _, [] => []
  | _, true :: rest => sleepBackoffWait cfg 1 :: listenerSleeps cfg 0 rest
  | attempt, false :: rest =>
    sleepBackoffWait cfg (attempt + 1) :: listenerSleeps cfg (attempt + 1) rest

/-- The consecutive-failure counter after a trace of dial outcomes. -/
def listenerAttempt : Nat → List Bool → Nat
  | attempt, [] => attempt
  | _, true :: rest => listenerAttempt 0 rest
  | attempt, false :: rest => listenerAttempt (attempt + 1) rest

theorem listenerSleeps_replicate (cfg : ListenerCfg) :
    ∀ n a, listenerSleeps cfg a (List.replicate n false)
      = (List.range n).map (fun i => min (cfg.reconnect * (a + i + 1)) cfg.reconnectMax) := by
  intro n
  induction n with
  | zero => intro a; simp [listenerSleeps]
  | succ n ih =>
    intro a
    rw [List.replicate_succ]
    simp only [listenerSleeps]
    rw [ih (a + 1), List.range_succ_eq_map]
    simp only [List.map_cons, List.map_map, sleepBackoffWait]
    refine congrArg₂ List.cons (by ring_nf) ?_
    refine List.map_congr_left ?_
    intro i _
    simp only [Function.comp, Nat.succ_eq_add_one]
    ring_nf

/-- C8: over any run of consecutive dial failures, the sleep after the n-th
failure is the base reconnect interval times n capped at the configured
maximum; the defaults are 1 s base and 30 s cap; and a successful connection
resets the consecutive-failure counter to zero.  Concretely, three failures,
a success and another failure sleep 1 s, 2 s, 3 s, 1 s, 1 s under the
defaults. -/
theorem claim_C8_linear_backoff :
    (∀ (cfg : ListenerCfg) (n : Nat),
      listenerSleeps cfg 0 (List.replicate n false)
        = (List.range n).map (fun i => min (cfg.reconnect * (i + 1)) cfg.reconnectMax)) ∧
    (∀ (a : Nat) (rest : List Bool), listenerAttempt a (true :: rest) = listenerAttempt 0 rest) ∧
    defaultListenerCfg = ⟨1000000000, 30000000000⟩ ∧
    listenerSleeps defaultListenerCfg 0 [false, false, false, true, false]
      = [1000000000, 2000000000, 3000000000, 1000000000, 1000000000] := by
  refine ⟨?_, fun a rest => rfl, rfl, by decide⟩
  intro cfg n
  have h := listenerSleeps_replicate cfg n 0
  simpa using h

/-! ## JSONL sink (logger.JSONLWriter)

`Consume` turns one `RatPacket` into one `jsonRecord` and encodes it with
`encoding/json`, which writes struct fields in declaration order (`ts`,
`id`, `payload_hex`, `data`, `text`) and honours `omitempty`: the `data`
field (declared `any`) is omitted exactly when the decoded value is a nil
interface, the `text` field (a string) exactly when it is empty.  The
timestamp is carried as its already-formatted RFC-3339 string. -/

/-- The decoded `Data any` payload of a record, as far as the sink inspects
it: `none` is a nil interface; a text packet carries a string; an
unregistered id carries the raw wrapper. -/
inductive JsonValue where
  | str (s : String)
  | num (n : Int)
  | raw (idStr : String) (payloadHexStr : String)
  deriving Repr, DecidableEq

structure RatPacket where
  id : Nat
  ts : String
  payload : List Nat
  data : Option JsonValue
  deriving Repr, DecidableEq

def hexDigit (n : Nat) : Char :=
  if n < 10 then Char.ofNat (48 + n) else Char.ofNat (87 + n)

/-- Lowercase hex of one byte (`hex.EncodeToString` on a single byte). -/
def hexByte (b : Nat) : String :=
  String.mk [hexDigit (b / 16 % 16), hexDigit (b % 16)]

/-- Go `logger.formatID`: `0x` plus two lowercase hex digits. -/
def formatID (id : Nat) : String :=
  "0x" ++ hexByte id

/-- Go `hex.EncodeToString` over the raw body. -/
def hexEncode (payload : List Nat) : String :=
  String.join (payload.map hexByte)

/-- The `jsonRecord` struct of the sink. -/
structure JsonlRecord where
  ts : String
  id : String
  payloadHex : String
  data : Option JsonValue
  text : String
  deriving Repr, DecidableEq

/-- `JSONLWriter.Consume`, per record: `data` is always the packet's decoded
value; `text` is set in addition when the packet id equals the configured
text id and the decoded value is a string. -/
def consumeRecord (textID : Nat) (pkt : RatPacket) : JsonlRecord :=
  { ts := pkt.ts
    id := formatID pkt.id
    payloadHex := hexEncode pkt.payload
    data := pkt.data
    text :=
      if pkt.id = textID then
        match pkt.data with
        | some (.str s) => s
        | _ => ""
      else "" }

def jsonEscapeChar (c : Char) : String :=
  if c = '"' then "\\\"" else if c = '\\' then "\\\\" else String.mk [c]

def jsonStringLit (s : String) : String :=
  "\"" ++ String.join (s.toList.map jsonEscapeChar) ++ "\""

def renderJsonValue : JsonValue → String
  | .str s => jsonStringLit s
  | .num n => toString n
  | .raw i p =>
    "\x7b\"id\":" ++ jsonStringLit i ++ ",\"payload_hex\":" ++ jsonStringLit p ++ "\x7d"

/-- The keys present on the emitted line, in `encoding/json` field order
with `omitempty` applied. -/
def jsonlKeys (r : JsonlRecord) : List String :=
  ["ts", "id", "payload_hex"]
    ++ (match r.data with | none => [] | some _ => ["data"])
    ++ (if r.text = "" then [] else ["text"])

/-- The emitted JSONL line for one record. -/
def jsonlLine (r : JsonlRecord) : String :=
  "\x7b" ++ String.intercalate ","
    (["\"ts\":" ++ jsonStringLit r.ts,
      "\"id\":" ++ jsonStringLit r.id,
      "\"payload_hex\":" ++ jsonStringLit r.payloadHex]
      ++ (match r.data with | none => [] | some v => ["\"data\":" ++ renderJsonValue v])
      ++ (if r.text = "" then [] else ["\"text\":" ++ jsonStringLit r.text]))
    ++ "\x7d"

/-- C1 fails on the code: for the E1 text packet (id 0xFF, body `68 69`,
decoded value the string `hi`), the emitted line carries BOTH a `data` and a
`text` key — the sink always serializes `Data` (non-nil, so not omitted) and
additionally sets `Text` for the text id — so it is not the claimed line
`\x7b"id":"0xff","payload_hex":"6869","text":"hi"\x7d` even ignoring `ts`;
the repo's own `jsonl_test.go` asserts `data = "hi"` on this very input. -/
theorem claim_C1_counterexample :
    "data" ∈ jsonlKeys (consumeRecord 0xFF ⟨0xFF, "T", [0x68, 0x69], some (.str "hi")⟩) ∧
    "text" ∈ jsonlKeys (consumeRecord 0xFF ⟨0xFF, "T", [0x68, 0x69], some (.str "hi")⟩) ∧
    jsonlLine (consumeRecord 0xFF ⟨0xFF, "T", [0x68, 0x69], some (.str "hi")⟩)
      = "\x7b\"ts\":\"T\",\"id\":\"0xff\",\"payload_hex\":\"6869\",\"data\":\"hi\",\"text\":\"hi\"\x7d" := by
  refine ⟨by decide, by decide, rfl⟩

/-- C1 (amended): every emitted line has keys `ts`, `id` (0x + two lowercase
hex digits) and `payload_hex` (lowercase hex of the body); a `data` key
exactly when the record's decoded value is non-nil; and, in addition to
`data`, a `text` key exactly when the record's id equals the configured text
id and its decoded value is a non-empty string.  For the E1 packet the line
is `\x7b"ts":...,"id":"0xff","payload_hex":"6869","data":"hi","text":"hi"\x7d`. -/
theorem claim_C1_jsonl_line_keys :
    (∀ (textID : Nat) (pkt : RatPacket),
      "ts" ∈ jsonlKeys (consumeRecord textID pkt) ∧
      "id" ∈ jsonlKeys (consumeRecord textID pkt) ∧
      "payload_hex" ∈ jsonlKeys (consumeRecord textID pkt) ∧
      ("data" ∈ jsonlKeys (consumeRecord textID pkt) ↔ pkt.data ≠ none) ∧
      ("text" ∈ jsonlKeys (consumeRecord textID pkt) ↔
        ∃ s, pkt.id = textID ∧ pkt.data = some (.str s) ∧ s ≠ "")) ∧
    (consumeRecord 0xFF ⟨0xFF, "T", [0x68, 0x69], some (.str "hi")⟩).id = "0xff" ∧
    (consumeRecord 0xFF ⟨0xFF, "T", [0x68, 0x69], some (.str "hi")⟩).payloadHex = "6869" ∧
    jsonlLine (consumeRecord 0xFF ⟨0xFF, "T", [0x68, 0x69], some (.str "hi")⟩)
      = "\x7b\"ts\":\"T\",\"id\":\"0xff\",\"payload_hex\":\"6869\",\"data\":\"hi\",\"text\":\"hi\"\x7d" := by
  refine ⟨?_, rfl, rfl, rfl⟩
  intro textID pkt
  refine ⟨by simp [jsonlKeys], by simp [jsonlKeys], by simp [jsonlKeys], ?_, ?_⟩
  · cases hd : pkt.data with
    | none => simp [jsonlKeys, consumeRecord, hd]
    | some v => simp [jsonlKeys, consumeRecord, hd]
  · by_cases hid : pkt.id = textID
    · cases hd : pkt.data with
      | none => simp [jsonlKeys, consumeRecord, hid, hd]
      | some v =>
        cases v with
        | str s =>
          by_cases hs : s = ""
          · simp [jsonlKeys, consumeRecord, hid, hd, hs]
          · simp [jsonlKeys, consumeRecord, hid, hd, hs]
        | num n => simp [jsonlKeys, consumeRecord, hid, hd]
        | raw i p => simp [jsonlKeys, consumeRecord, hid, hd]
    · cases hd : pkt.data with
      | none => simp [jsonlKeys, consumeRecord, hid, hd]
      | some v => simp [jsonlKeys, consumeRecord, hid, hd]
